import Mathlib

/-!
Verification development for the ARTHUR voice assistant core.

Shallow embedding of the reminder scheduler, the study/focus timer, the
utterance recorder and the wake-word gate, translated from the Python
source under src/arthur.  Timestamps are modelled as rationals, machine
floats that only ever feed comparisons are modelled as rationals, and
the SQLite tables are modelled as in-memory lists of records.
-/

namespace Arthur

/-! ## Reminders

Embedded from src/arthur/core/memory.py (reminder table operations) and
src/arthur/features/reminders.py (ReminderManager).
-/

/-- One row of the reminders table (memory.py, table `reminders`). -/
structure Reminder where
  id : ℕ
  message : String
  remindAt : ℚ
  completed : Bool
deriving DecidableEq, Repr

/-- Memory.get_due_reminders: rows with completed = FALSE and remind_at <= now. -/
def getDueReminders (now : ℚ) (rs : List Reminder) : List Reminder :=
  rs.filter (fun r => r.completed = false ∧ r.remindAt ≤ now)

/-- Memory.complete_reminder: UPDATE reminders SET completed = TRUE WHERE id = ?. -/
def completeReminder (i : ℕ) (rs : List Reminder) : List Reminder :=
  rs.map (fun r => if r.id = i then { r with completed := true } else r)

/-- ReminderManager.check_reminders: fetch the due reminders, collect their
messages (one delivery-callback invocation each in the checker loop) and mark
each one completed within the same cycle. -/
def checkReminders (now : ℚ) (rs : List Reminder) : List String × List Reminder :=
  let due := getDueReminders now rs
  (due.map (fun r => r.message), due.foldl (fun acc r => completeReminder r.id acc) rs)

/-- The reminders delivered (one per callback invocation) over a sequence of
poll cycles of ReminderManager._checker_loop, each cycle observing its own
current time. -/
def deliveredOverCycles : List ℚ → List Reminder → List Reminder
  | [], _ => []
  | t :: ts, rs => getDueReminders t rs ++ deliveredOverCycles ts (checkReminders t rs).2

/-- Insertion step of the remind_at ordering used by ORDER BY remind_at ASC. -/
def insertSorted (r : Reminder) : List Reminder → List Reminder
  | [] => [r]
  | x :: xs => if r.remindAt ≤ x.remindAt then r :: x :: xs else x :: insertSorted r xs

/-- Stable sort by remind_at, modelling ORDER BY remind_at ASC. -/
def sortByRemindAt : List Reminder → List Reminder
  | [] => []
  | x :: xs => insertSorted x (sortByRemindAt xs)

/-- Memory.get_pending_reminders: completed = FALSE rows ordered by remind_at. -/
def pendingReminders (rs : List Reminder) : List Reminder :=
  sortByRemindAt (rs.filter (fun r => r.completed = false))

/-- ReminderManager.cancel_reminder with the identifier already parsed as a
number n; the source accepts it when 0 <= n - 1 < len(pending) and then marks
the selected pending reminder completed. -/
def cancelReminder (n : ℕ) (rs : List Reminder) : List Reminder :=
  let pending := pendingReminders rs
  if h : 1 ≤ n ∧ n - 1 < pending.length then
    completeReminder (pending.get ⟨n - 1, h.2⟩).id rs
  else rs

/-! ## Study timer

Embedded from src/arthur/features/study.py (StudyTimer) and
src/arthur/core/memory.py (study_sessions table operations).
-/

/-- One row of the study_sessions table. -/
structure SessionRecord where
  subject : String
  durationMinutes : ℕ
  startedAt : ℚ
  endedAt : ℚ
  completed : Bool
deriving DecidableEq, Repr

/-- The mutable state of StudyTimer (study.py, constructor fields). -/
structure StudyState where
  isActive : Bool
  isBreak : Bool
  currentSubject : String
  sessionStart : ℚ
  sessionDuration : ℕ
  remainingSeconds : ℕ
  pomodoroCount : ℕ
deriving DecidableEq, Repr

/-- One second of StudyTimer._run_timer: while remaining_seconds > 0 the loop
decrements it by one. -/
def tick (st : StudyState) : StudyState :=
  if 0 < st.remainingSeconds then
    { st with remainingSeconds := st.remainingSeconds - 1 }
  else st

/-- StudyTimer._complete_session: on a break, deactivate; on a focus session,
persist a completed record for the full planned duration, bump the pomodoro
counter and deactivate. -/
def completeSession (now : ℚ) (st : StudyState) : StudyState × Option SessionRecord :=
  if st.isBreak then
    ({ st with isActive := false, isBreak := false }, none)
  else
    ({ st with isActive := false, pomodoroCount := st.pomodoroCount + 1 },
     some { subject := if st.currentSubject = "" then "General" else st.currentSubject
            durationMinutes := st.sessionDuration
            startedAt := st.sessionStart
            endedAt := now
            completed := true })

/-- StudyTimer._run_timer run to natural completion (the stop event never
set): the countdown ticks remaining_seconds down to zero, then
_complete_session runs. -/
def runTimer (now : ℚ) (st : StudyState) : StudyState × Option SessionRecord :=
  completeSession now (tick^[st.remainingSeconds] st)

/-- StudyTimer.start_break: rejected while a focus session is active;
otherwise the break duration (argument or pomodoro-dependent default, a 0
argument being falsy in the source) restarts the countdown. -/
def startBreak (durationMinutes : Option ℕ) (st : StudyState) : StudyState :=
  if st.isActive && !st.isBreak then st
  else
    let isLong := st.pomodoroCount % 4 = 0 ∧ 0 < st.pomodoroCount
    let defaultBreak : ℕ := if isLong then 15 else 5
    let duration := match durationMinutes with
      | some d => if d = 0 then defaultBreak else d
      | none => defaultBreak
    { st with remainingSeconds := duration * 60, isActive := true, isBreak := true }

/-- StudyTimer.stop_session: no-op when idle; a break ends with nothing
persisted; a focus session persists a completed=false record with the elapsed
whole minutes when at least 5 minutes have elapsed, and in every case the
session is deactivated.  remaining_seconds is left untouched. -/
def stopSession (now : ℚ) (st : StudyState) : StudyState × Option SessionRecord :=
  if !st.isActive then (st, none)
  else if st.isBreak then ({ st with isActive := false, isBreak := false }, none)
  else
    let elapsedMinutes := (st.sessionDuration * 60 - st.remainingSeconds) / 60
    if 5 ≤ elapsedMinutes then
      ({ st with isActive := false },
       some { subject := if st.currentSubject = "" then "General" else st.currentSubject
              durationMinutes := elapsedMinutes
              startedAt := st.sessionStart
              endedAt := now
              completed := false })
    else ({ st with isActive := false }, none)

/-- The aggregate returned by Memory.get_study_stats. -/
structure StudyStats where
  totalMinutes : ℕ
  sessionCount : ℕ
  avgDuration : ℚ
deriving DecidableEq, Repr

/-- Memory.get_study_stats: SUM, COUNT and AVG of duration_minutes over rows
with completed = TRUE and started_at >= now - days, NULL aggregates mapped to
0 as in the source. -/
def getStudyStats (now : ℚ) (days : ℕ) (records : List SessionRecord) : StudyStats :=
  let sel := records.filter (fun r => r.completed = true ∧ now - (days : ℚ) ≤ r.startedAt)
  let total := (sel.map (fun r => r.durationMinutes)).sum
  { totalMinutes := total
    sessionCount := sel.length
    avgDuration := if sel.length = 0 then 0 else (total : ℚ) / (sel.length : ℚ) }

/-! ## Utterance recorder

Embedded from src/arthur/core/ears.py (Ears.record_audio).  A frame is
represented by its RMS level, the only attribute the control flow inspects;
the emitted utterance is represented as the list of accumulated frames, in
order (the source concatenates their samples into one array).  The input
queue is represented by the list of frame levels yet to be dequeued; queue
exhaustion corresponds to the queue.Empty break in the source.
-/

/-- The loop of Ears.record_audio: while fewer than maxChunks frames are
recorded, dequeue a frame, append it to the accumulator, and either extend or
reset the consecutive-silence counter; break once the counter reaches
chunksForSilence with more than 2 frames recorded. -/
def recordAudioLoop (thr : ℚ) (cfs mx : ℕ) :
    List ℚ → List ℚ → ℕ → List ℚ
  | [], recorded, _ => recorded
  | c :: rest, recorded, silence =>
    if mx ≤ recorded.length then recorded
    else if c < thr then
      if cfs ≤ silence + 1 ∧ 2 < (recorded ++ [c]).length then recorded ++ [c]
      else recordAudioLoop thr cfs mx rest (recorded ++ [c]) (silence + 1)
    else recordAudioLoop thr cfs mx rest (recorded ++ [c]) 0

/-- What Ears.record_audio leaves behind: the emitted utterance (its frames in
capture order) and the is_recording flag, which the source always resets to
False before returning; any frames still queued are flushed and discarded. -/
structure RecordResult where
  frames : List ℚ
  isRecordingAfter : Bool
deriving DecidableEq, Repr

/-- Ears.record_audio on a queue of incoming frame levels: the accumulator
starts empty, the silence counter at zero. -/
def recordAudio (thr : ℚ) (cfs mx : ℕ) (queue : List ℚ) : RecordResult :=
  { frames := recordAudioLoop thr cfs mx queue [] 0
    isRecordingAfter := false }

/-- Default silence threshold 0.01 (ears.py). -/
def defaultThreshold : ℚ := 1 / 100

/-- Default chunks_for_silence = int(1.5 / 0.5) (ears.py). -/
def defaultChunksForSilence : ℕ := 3

/-- Default max_chunks = int(30 / 0.5) (ears.py). -/
def defaultMaxChunks : ℕ := 60

/-- The running consecutive-silence counter after folding a block of frames,
starting from an initial counter value: incremented on a below-threshold
frame, reset to zero otherwise.  Mirrors the silence_chunks variable. -/
def silCount (thr : ℚ) (init : ℕ) (l : List ℚ) : ℕ :=
  l.foldl (fun s c => if c < thr then s + 1 else 0) init

/-! ## Wake-word gate

Embedded from src/arthur/core/ears.py (Ears.listen_with_wake_word) and
src/arthur/interface/voice_mode.py (VoiceInterface._main_loop).  Transcribed
text is modelled as a list of characters; lowercasing is ASCII (the inputs of
interest are ASCII transcripts).
-/

/-- Whether pat occurs at the head of s (character-by-character). -/
def startsWithList : List Char → List Char → Bool
  | [], _ => true
  | _ :: _, [] => false
  | p :: ps, c :: cs => p == c && startsWithList ps cs

/-- Index of the first occurrence of pat in s, none when absent: the model of
the Python membership test followed by str.find. -/
def findSub (pat : List Char) : List Char → Option ℕ
  | [] => if startsWithList pat [] then some 0 else none
  | c :: rest =>
    if startsWithList pat (c :: rest) then some 0
    else (findSub pat rest).map (· + 1)

/-- str.lower restricted to ASCII. -/
def lowerStr (s : List Char) : List Char := s.map Char.toLower

/-- str.lstrip with a character predicate. -/
def pyLstrip (p : Char → Bool) (s : List Char) : List Char := s.dropWhile p

/-- str.strip (whitespace from both ends). -/
def pyStrip (s : List Char) : List Char :=
  ((s.dropWhile Char.isWhitespace).reverse.dropWhile Char.isWhitespace).reverse

/-- The wake token (Ears.WAKE_WORD). -/
def wakeWord : List Char := "arthur".toList

/-- Ears.listen_with_wake_word applied to a transcript: lowercase the text,
locate the wake token, take the text after it, strip surrounding whitespace,
then leading commas, then leading periods, then whitespace again; absent
token yields none (the source returns None). -/
def listenWithWakeWord (transcript : List Char) : Option (List Char) :=
  let text := lowerStr transcript
  match findSub wakeWord text with
  | none => none
  | some i =>
    let command := pyStrip (text.drop (i + wakeWord.length))
    some (pyStrip (pyLstrip (fun c => c == '.') (pyLstrip (fun c => c == ',') command)))

/-- The conversation state of VoiceInterface: the conversation_active flag
and the last_interaction timestamp. -/
structure GateState where
  conversationActive : Bool
  lastInteraction : ℚ
deriving DecidableEq, Repr

/-- The WaitingForWakeWord branch of VoiceInterface._main_loop: a transcript
that yields a wake result activates the conversation and refreshes the
last-interaction timestamp, handing the (possibly empty) command onward; a
transcript without the wake token changes nothing. -/
def gateStepWaiting (now : ℚ) (st : GateState) (transcript : List Char) :
    GateState × Option (List Char) :=
  match listenWithWakeWord transcript with
  | none => (st, none)
  | some cmd => ({ conversationActive := true, lastInteraction := now }, some cmd)

/-- The Active branch of VoiceInterface._main_loop: when the idle window has
expired the conversation is deactivated and no input is consumed; otherwise
the loop listens once (consuming input), refreshing the timestamp and handing
the text to the command handler when it is nonempty.  The returned Bool
records whether input was consumed. -/
def gateStepActive (timeout now : ℚ) (st : GateState) (text : List Char) :
    GateState × Bool × Option (List Char) :=
  if timeout < now - st.lastInteraction then
    ({ st with conversationActive := false }, false, none)
  else if text = [] then (st, true, none)
  else ({ st with lastInteraction := now }, true, some text)

/-! ## Recorder loop lemmas -/

/-- The silence counter steps through one frame exactly as the loop does. -/
theorem silCount_cons (thr : ℚ) (s : ℕ) (c : ℚ) (l : List ℚ) :
    silCount thr s (c :: l) = silCount thr (if c < thr then s + 1 else 0) l := by
  simp [silCount]

/-- Unfolding equation for one iteration of the recorder loop. -/
theorem recordAudioLoop_cons (thr : ℚ) (cfs mx : ℕ) (c : ℚ) (rest recorded : List ℚ)
    (silence : ℕ) :
    recordAudioLoop thr cfs mx (c :: rest) recorded silence =
      if mx ≤ recorded.length then recorded
      else if c < thr then
        if cfs ≤ silence + 1 ∧ 2 < (recorded ++ [c]).length then recorded ++ [c]
        else recordAudioLoop thr cfs mx rest (recorded ++ [c]) (silence + 1)
      else recordAudioLoop thr cfs mx rest (recorded ++ [c]) 0 := rfl

/-- The recorder loop only ever extends the accumulator with a prefix of the
remaining queue. -/
theorem recordAudioLoop_take (thr : ℚ) (cfs mx : ℕ) :
    ∀ (queue recorded : List ℚ) (silence : ℕ),
      ∃ k, recordAudioLoop thr cfs mx queue recorded silence = recorded ++ queue.take k := by
  intro queue
  induction queue with
  | nil => exact fun recorded silence => ⟨0, by simp [recordAudioLoop]⟩
  | cons c rest ih =>
    intro recorded silence
    rw [recordAudioLoop_cons]
    by_cases hmx : mx ≤ recorded.length
    · exact ⟨0, by rw [if_pos hmx]; simp⟩
    · rw [if_neg hmx]
      by_cases hc : c < thr
      · rw [if_pos hc]
        by_cases hstop : cfs ≤ silence + 1 ∧ 2 < (recorded ++ [c]).length
        · exact ⟨1, by rw [if_pos hstop]; simp [List.take_succ_cons]⟩
        · obtain ⟨k, hk⟩ := ih (recorded ++ [c]) (silence + 1)
          exact ⟨k + 1, by rw [if_neg hstop, hk]; simp [List.take_succ_cons]⟩
      · obtain ⟨k, hk⟩ := ih (recorded ++ [c]) 0
        exact ⟨k + 1, by rw [if_neg hc, hk]; simp [List.take_succ_cons]⟩

/-- The accumulator never grows beyond the frame cap. -/
theorem recordAudioLoop_length_le (thr : ℚ) (cfs mx : ℕ) :
    ∀ (queue recorded : List ℚ) (silence : ℕ), recorded.length ≤ mx →
      (recordAudioLoop thr cfs mx queue recorded silence).length ≤ mx := by
  intro queue
  induction queue with
  | nil => intro recorded silence h; simpa [recordAudioLoop] using h
  | cons c rest ih =>
    intro recorded silence h
    rw [recordAudioLoop_cons]
    by_cases hmx : mx ≤ recorded.length
    · rw [if_pos hmx]; exact h
    · rw [if_neg hmx]
      have hlen : (recorded ++ [c]).length ≤ mx := by
        simp only [List.length_append, List.length_cons, List.length_nil]
        omega
      by_cases hc : c < thr
      · rw [if_pos hc]
        by_cases hstop : cfs ≤ silence + 1 ∧ 2 < (recorded ++ [c]).length
        · rw [if_pos hstop]; exact hlen
        · rw [if_neg hstop]; exact ih (recorded ++ [c]) (silence + 1) hlen
      · rw [if_neg hc]; exact ih (recorded ++ [c]) 0 hlen

/-- When no frame ever drops below the threshold the loop records frames up
to the cap and never breaks early. -/
theorem recordAudioLoop_all_loud (thr : ℚ) (cfs mx : ℕ) :
    ∀ (queue recorded : List ℚ), (∀ c ∈ queue, ¬ c < thr) →
      recordAudioLoop thr cfs mx queue recorded 0 =
        recorded ++ queue.take (mx - recorded.length) := by
  intro queue
  induction queue with
  | nil => intro recorded _; simp [recordAudioLoop]
  | cons c rest ih =>
    intro recorded hall
    rw [recordAudioLoop_cons]
    by_cases hmx : mx ≤ recorded.length
    · rw [if_pos hmx, Nat.sub_eq_zero_of_le hmx]
      simp
    · rw [if_neg hmx]
      have hc : ¬ c < thr := hall c (List.mem_cons_self c rest)
      rw [if_neg hc]
      have hstep : mx - recorded.length = (mx - (recorded.length + 1)) + 1 := by omega
      rw [hstep, List.take_succ_cons]
      have hrec := ih (recorded ++ [c]) (fun x hx => hall x (List.mem_cons_of_mem c hx))
      simp only [List.length_append, List.length_cons, List.length_nil] at hrec
      rw [hrec]
      simp

/-- The stopping behaviour of the loop: when the input carries a first point
at which the consecutive-silence counter reaches the configured value with
more than two frames accumulated, and the cap has not been reached, the loop
returns exactly the frames up to that point. -/
theorem recordAudioLoop_silence_stop (thr : ℚ) (cfs mx : ℕ) (hcfs : 0 < cfs) :
    ∀ (queue : List ℚ) (k : ℕ) (recorded : List ℚ) (silence : ℕ),
      k < queue.length →
      recorded.length + (k + 1) ≤ mx →
      cfs ≤ silCount thr silence (queue.take (k + 1)) →
      2 < recorded.length + (k + 1) →
      (∀ j, j < k → ¬(cfs ≤ silCount thr silence (queue.take (j + 1)) ∧
          2 < recorded.length + (j + 1))) →
      recordAudioLoop thr cfs mx queue recorded silence = recorded ++ queue.take (k + 1) := by
  intro queue
  induction queue with
  | nil => intro k recorded silence hk; simp at hk
  | cons c rest ih =>
    intro k recorded silence hk hmx hsil hlen hmin
    have hguard : ¬ mx ≤ recorded.length := by omega
    have htail : ∀ j, silCount thr silence ((c :: rest).take (j + 1)) =
        silCount thr (if c < thr then silence + 1 else 0) (rest.take j) := by
      intro j
      rw [List.take_succ_cons, silCount_cons]
    rw [recordAudioLoop_cons, if_neg hguard]
    by_cases hc : c < thr
    · rw [if_pos hc]
      by_cases hstop : cfs ≤ silence + 1 ∧ 2 < (recorded ++ [c]).length
      · have hk0 : k = 0 := by
          by_contra h0
          refine hmin 0 (Nat.pos_of_ne_zero h0) ⟨?_, ?_⟩
          · rw [htail 0]
            simpa [silCount, hc] using hstop.1
          · have := hstop.2
            simp only [List.length_append, List.length_cons, List.length_nil] at this
            omega
        subst hk0
        rw [if_pos hstop, List.take_succ_cons]
        simp
      · have hk0 : k ≠ 0 := by
          intro h0
          subst h0
          rw [htail 0] at hsil
          refine hstop ⟨?_, ?_⟩
          · simpa [silCount, hc] using hsil
          · simp only [List.length_append, List.length_cons, List.length_nil]
            omega
        obtain ⟨k', rfl⟩ : ∃ k', k = k' + 1 := ⟨k - 1, by omega⟩
        rw [if_neg hstop]
        have hrec := ih k' (recorded ++ [c]) (silence + 1)
          (by simpa using Nat.lt_of_succ_lt_succ hk)
          (by simp only [List.length_append, List.length_cons, List.length_nil]; omega)
          (by have := hsil; rw [htail (k' + 1), if_pos hc] at this; exact this)
          (by simp only [List.length_append, List.length_cons, List.length_nil]; omega)
          (by
            intro j hj hcontra
            refine hmin (j + 1) (by omega) ⟨?_, ?_⟩
            · rw [htail (j + 1), if_pos hc]
              exact hcontra.1
            · have := hcontra.2
              simp only [List.length_append, List.length_cons, List.length_nil] at this
              omega)
        rw [hrec, List.take_succ_cons]
        simp
    · rw [if_neg hc]
      have hk0 : k ≠ 0 := by
        intro h0
        subst h0
        rw [htail 0, if_neg hc] at hsil
        simp only [List.take_zero, silCount, List.foldl_nil] at hsil
        omega
      obtain ⟨k', rfl⟩ : ∃ k', k = k' + 1 := ⟨k - 1, by omega⟩
      have hrec := ih k' (recorded ++ [c]) 0
        (by simpa using Nat.lt_of_succ_lt_succ hk)
        (by simp only [List.length_append, List.length_cons, List.length_nil]; omega)
        (by have := hsil; rw [htail (k' + 1), if_neg hc] at this; exact this)
        (by simp only [List.length_append, List.length_cons, List.length_nil]; omega)
        (by
          intro j hj hcontra
          refine hmin (j + 1) (by omega) ⟨?_, ?_⟩
          · rw [htail (j + 1), if_neg hc]
            exact hcontra.1
          · have := hcontra.2
            simp only [List.length_append, List.length_cons, List.length_nil] at this
            omega)
      rw [hrec, List.take_succ_cons]
      simp

/-! ## Claims about the utterance recorder -/

/-- Claim C2, counterexample: with the default calibration, a queue of three
silent frames, none of whose levels exceeds the threshold, still yields a
nonempty utterance made of exactly those frames.  The recorder therefore does
not wait in an Idle state for a first above-threshold frame, and the emitted
utterance does contain frames that arrived while no speech had been
detected. -/
theorem recorderIdleGating_counterexample :
    (∀ c ∈ ([0, 0, 0] : List ℚ), ¬ defaultThreshold < c) ∧
    (recordAudio defaultThreshold defaultChunksForSilence defaultMaxChunks
      [0, 0, 0]).frames = [0, 0, 0] ∧
    ([0, 0, 0] : List ℚ) ≠ [] := by
  refine ⟨?_, ?_, by simp⟩
  · intro c hc
    fin_cases hc <;> norm_num [defaultThreshold]
  · norm_num [recordAudio, recordAudioLoop, defaultThreshold, defaultChunksForSilence,
      defaultMaxChunks]

/-- Claim C2, amended: recording starts at the first dequeued frame whatever
its level — the emitted utterance is that first frame followed by a prefix of
the remaining queue, and the recorder is back to not-recording afterwards.
There is no Idle phase discarding pre-speech frames. -/
theorem recorderRecordsFromFirstFrame (thr : ℚ) (cfs mx : ℕ) (c : ℚ) (rest : List ℚ)
    (hmx : 0 < mx) :
    (∃ k, (recordAudio thr cfs mx (c :: rest)).frames = c :: rest.take k) ∧
    (recordAudio thr cfs mx (c :: rest)).isRecordingAfter = false := by
  refine ⟨?_, rfl⟩
  have hguard : ¬ mx ≤ ([] : List ℚ).length := by simp; omega
  show ∃ k, recordAudioLoop thr cfs mx (c :: rest) [] 0 = c :: rest.take k
  rw [recordAudioLoop_cons, if_neg hguard]
  by_cases hc : c < thr
  · rw [if_pos hc]
    by_cases hstop : cfs ≤ 0 + 1 ∧ 2 < (([] : List ℚ) ++ [c]).length
    · rw [if_pos hstop]
      exact ⟨0, by simp⟩
    · rw [if_neg hstop]
      obtain ⟨k, hk⟩ := recordAudioLoop_take thr cfs mx rest ([] ++ [c]) (0 + 1)
      exact ⟨k, by simpa using hk⟩
  · rw [if_neg hc]
    obtain ⟨k, hk⟩ := recordAudioLoop_take thr cfs mx rest ([] ++ [c]) 0
    exact ⟨k, by simpa using hk⟩

/-- Claim C2, witness for the amended theorem at a concrete silent-first
queue. -/
theorem recorderRecordsFromFirstFrame_witness :
    (∃ k, (recordAudio 1 3 60 ((0 : ℚ) :: [2, 0])).frames = 0 :: [2, 0].take k) ∧
    (recordAudio 1 3 60 ((0 : ℚ) :: [2, 0])).isRecordingAfter = false :=
  recorderRecordsFromFirstFrame 1 3 60 0 [2, 0] (by decide)

/-- Claim C5: when the consecutive-silence counter first reaches the
configured count at a frame index with more than the minimum frames recorded
and the cap not yet reached, the recorder stops there, emits exactly the
accumulated frames up to and including that frame, and is no longer
recording. -/
theorem recorderEmitsOnSilence (thr : ℚ) (cfs mx : ℕ) (levels : List ℚ) (k : ℕ)
    (hcfs : 0 < cfs) (hk : k < levels.length) (hmx : k + 1 ≤ mx)
    (hsil : cfs ≤ silCount thr 0 (levels.take (k + 1)))
    (hmin3 : 2 < k + 1)
    (hfirst : ∀ j, j < k → ¬(cfs ≤ silCount thr 0 (levels.take (j + 1)) ∧ 2 < j + 1)) :
    (recordAudio thr cfs mx levels).frames = levels.take (k + 1) ∧
    (recordAudio thr cfs mx levels).isRecordingAfter = false := by
  refine ⟨?_, rfl⟩
  have h := recordAudioLoop_silence_stop thr cfs mx hcfs levels k [] 0 hk
    (by simpa using hmx) hsil (by simpa using hmin3)
    (by
      intro j hj hcontra
      exact hfirst j hj ⟨hcontra.1, by simpa using hcontra.2⟩)
  simpa [recordAudio] using h

/-- Claim C5, witness: one loud frame followed by three silent frames stops
the recorder at the third silent frame with all four frames emitted. -/
theorem recorderEmitsOnSilence_witness :
    (recordAudio 1 3 60 [2, 0, 0, 0]).frames = List.take 4 [2, 0, 0, 0] ∧
    (recordAudio 1 3 60 [2, 0, 0, 0]).isRecordingAfter = false :=
  recorderEmitsOnSilence 1 3 60 [2, 0, 0, 0] 3 (by decide) (by decide) (by decide)
    (by decide) (by decide) (by decide)

/-- Claim C6: the recorder never accumulates more than the frame cap, and on
input that never drops below the threshold it still emits the accumulated
utterance, namely the first maxChunks frames. -/
theorem recorderCapBound (thr : ℚ) (cfs mx : ℕ) (levels : List ℚ) :
    (recordAudio thr cfs mx levels).frames.length ≤ mx ∧
    ((∀ c ∈ levels, ¬ c < thr) → (recordAudio thr cfs mx levels).frames = levels.take mx) := by
  constructor
  · simpa [recordAudio] using recordAudioLoop_length_le thr cfs mx levels [] 0 (by simp)
  · intro hall
    simpa [recordAudio] using recordAudioLoop_all_loud thr cfs mx levels [] hall

/-- Claim C6, witness: three loud frames against a cap of two frames. -/
theorem recorderCapBound_witness :
    (recordAudio 1 3 2 [2, 2, 2]).frames.length ≤ 2 ∧
    (recordAudio 1 3 2 [2, 2, 2]).frames = List.take 2 [2, 2, 2] := by
  have h := recorderCapBound 1 3 2 [2, 2, 2]
  exact ⟨h.1, h.2 (by decide)⟩

/-! ## Reminder lemmas -/

/-- Marking the completion of a batch of reminder ids, one complete_reminder
call per id, as the check cycle performs it. -/
def completeAll (ids : List ℕ) (rs : List Reminder) : List Reminder :=
  ids.foldl (fun acc i => completeReminder i acc) rs

/-- The post-state of a check cycle is the batch completion of the due ids. -/
theorem checkReminders_snd (now : ℚ) (rs : List Reminder) :
    (checkReminders now rs).2 =
      completeAll ((getDueReminders now rs).map (fun r => r.id)) rs := by
  simp [checkReminders, completeAll, List.foldl_map]

/-- After complete_reminder i, every row with that id is completed. -/
theorem completeReminder_id_completed (i : ℕ) (rs : List Reminder) :
    ∀ x ∈ completeReminder i rs, x.id = i → x.completed = true := by
  intro x hx hid
  simp only [completeReminder, List.mem_map] at hx
  obtain ⟨y, hy, rfl⟩ := hx
  by_cases h : y.id = i
  · simp [h]
  · simp only [if_neg h] at hid ⊢
    exact absurd hid h

/-- complete_reminder never un-completes rows of a given id. -/
theorem completeReminder_keeps_completed (i j : ℕ) (rs : List Reminder)
    (h : ∀ x ∈ rs, x.id = i → x.completed = true) :
    ∀ x ∈ completeReminder j rs, x.id = i → x.completed = true := by
  intro x hx hid
  simp only [completeReminder, List.mem_map] at hx
  obtain ⟨y, hy, rfl⟩ := hx
  by_cases hj : y.id = j
  · simp [hj]
  · simp only [if_neg hj] at hid ⊢
    exact h y hy hid

/-- complete_reminder with a different id leaves an uncompleted id
uncompleted. -/
theorem completeReminder_keeps_uncompleted (i j : ℕ) (hne : i ≠ j) (rs : List Reminder)
    (h : ∀ x ∈ rs, x.id = i → x.completed = false) :
    ∀ x ∈ completeReminder j rs, x.id = i → x.completed = false := by
  intro x hx hid
  simp only [completeReminder, List.mem_map] at hx
  obtain ⟨y, hy, rfl⟩ := hx
  by_cases hj : y.id = j
  · simp only [if_pos hj] at hid
    exact absurd (hid ▸ hj) hne
  · simp only [if_neg hj] at hid ⊢
    exact h y hy hid

/-- Batch completion preserves a completed id. -/
theorem completeAll_keeps_completed (i : ℕ) :
    ∀ (ids : List ℕ) (rs : List Reminder),
      (∀ x ∈ rs, x.id = i → x.completed = true) →
      ∀ x ∈ completeAll ids rs, x.id = i → x.completed = true := by
  intro ids
  induction ids with
  | nil => intro rs h; simpa [completeAll] using h
  | cons j ids ih =>
    intro rs h
    simpa [completeAll, List.foldl_cons] using
      ih (completeReminder j rs) (completeReminder_keeps_completed i j rs h)

/-- Batch completion completes every id it is given. -/
theorem completeAll_completes (i : ℕ) :
    ∀ (ids : List ℕ) (rs : List Reminder), i ∈ ids →
      ∀ x ∈ completeAll ids rs, x.id = i → x.completed = true := by
  intro ids
  induction ids with
  | nil => intro rs h; simp at h
  | cons j ids ih =>
    intro rs hmem
    rcases List.mem_cons.mp hmem with rfl | hmem
    · simpa [completeAll, List.foldl_cons] using
        completeAll_keeps_completed i ids (completeReminder i rs)
          (completeReminder_id_completed i rs)
    · simpa [completeAll, List.foldl_cons] using ih (completeReminder j rs) hmem

/-- Batch completion of other ids leaves an uncompleted id uncompleted. -/
theorem completeAll_keeps_uncompleted (i : ℕ) :
    ∀ (ids : List ℕ) (rs : List Reminder), i ∉ ids →
      (∀ x ∈ rs, x.id = i → x.completed = false) →
      ∀ x ∈ completeAll ids rs, x.id = i → x.completed = false := by
  intro ids
  induction ids with
  | nil => intro rs _ h; simpa [completeAll] using h
  | cons j ids ih =>
    intro rs hni h
    have hne : i ≠ j := fun he => hni (he ▸ List.mem_cons_self j ids)
    have hni2 : i ∉ ids := fun hm => hni (List.mem_cons_of_mem j hm)
    simpa [completeAll, List.foldl_cons] using
      ih (completeReminder j rs) hni2 (completeReminder_keeps_uncompleted i j hne rs h)

/-- In a table with pairwise distinct ids, a member reminder is determined by
its id. -/
theorem eq_of_mem_of_id_eq {rs : List Reminder} {x r : Reminder}
    (hnd : (rs.map (fun y => y.id)).Nodup) (hx : x ∈ rs) (hr : r ∈ rs)
    (h : x.id = r.id) : x = r :=
  List.inj_on_of_nodup_map hnd hx hr h

/-- In a table with pairwise distinct ids, a member reminder occurs with its
id exactly once. -/
theorem countP_id_eq_one {rs : List Reminder} {r : Reminder}
    (hnd : (rs.map (fun y => y.id)).Nodup) (hr : r ∈ rs) :
    rs.countP (fun x => x.id = r.id) = 1 := by
  have h1 : rs.countP (fun x => x.id = r.id) = (rs.map (fun y => y.id)).count r.id := by
    rw [List.count, List.countP_map]
    congr 1
  rw [h1]
  exact List.count_eq_one_of_mem hnd (List.mem_map_of_mem _ hr)

/-- A reminder delivered by a cycle was uncompleted when the cycle read it. -/
theorem mem_getDueReminders {now : ℚ} {rs : List Reminder} {x : Reminder}
    (hx : x ∈ getDueReminders now rs) :
    x ∈ rs ∧ x.completed = false ∧ x.remindAt ≤ now := by
  simp only [getDueReminders, List.mem_filter, decide_eq_true_eq] at hx
  exact ⟨hx.1, hx.2.1, hx.2.2⟩

/-- Once every row of an id is completed, no later poll cycle ever delivers
that id again. -/
theorem deliveredOverCycles_completed_id (i : ℕ) :
    ∀ (times : List ℚ) (rs : List Reminder),
      (∀ x ∈ rs, x.id = i → x.completed = true) →
      (deliveredOverCycles times rs).countP (fun x => x.id = i) = 0 := by
  intro times
  induction times with
  | nil => intro rs _; simp [deliveredOverCycles]
  | cons t ts ih =>
    intro rs h
    simp only [deliveredOverCycles, List.countP_append]
    have h1 : (getDueReminders t rs).countP (fun x => x.id = i) = 0 := by
      rw [List.countP_eq_zero]
      intro x hx
      obtain ⟨hmem, hfalse, _⟩ := mem_getDueReminders hx
      simp only [decide_eq_true_eq]
      intro hid
      rw [h x hmem hid] at hfalse
      exact absurd hfalse (by simp)
    have h2 : (deliveredOverCycles ts (checkReminders t rs).2).countP
        (fun x => x.id = i) = 0 := by
      apply ih
      rw [checkReminders_snd]
      exact completeAll_keeps_completed i _ rs h
    omega

/-- Membership is invariant under the sorted insertion step. -/
theorem mem_insertSorted {x r : Reminder} :
    ∀ {l : List Reminder}, x ∈ insertSorted r l ↔ x = r ∨ x ∈ l := by
  intro l
  induction l with
  | nil => simp [insertSorted]
  | cons y ys ih =>
    simp only [insertSorted]
    by_cases h : r.remindAt ≤ y.remindAt
    · rw [if_pos h]
      simp [List.mem_cons]
    · rw [if_neg h]
      simp only [List.mem_cons, ih]
      tauto

/-- Membership is invariant under the remind_at sort. -/
theorem mem_sortByRemindAt {x : Reminder} :
    ∀ {l : List Reminder}, x ∈ sortByRemindAt l ↔ x ∈ l := by
  intro l
  induction l with
  | nil => simp [sortByRemindAt]
  | cons y ys ih =>
    simp only [sortByRemindAt, mem_insertSorted, ih, List.mem_cons]

/-! ## Claims about reminders -/

/-- Claim C1: a reminder that is uncompleted and due is delivered exactly
once by the check cycle (its id occurs exactly once among the delivered
reminders), its completed flag is flipped to true within that same cycle,
and across any number of subsequent poll cycles it is never delivered
again.  The table is assumed to have pairwise distinct ids, as the
autoincrement primary key guarantees. -/
theorem reminderDeliveredExactlyOnce (now : ℚ) (rs : List Reminder) (r : Reminder)
    (hnd : (rs.map (fun y => y.id)).Nodup)
    (hr : r ∈ rs) (hc : r.completed = false) (hd : r.remindAt ≤ now) :
    (getDueReminders now rs).countP (fun x => x.id = r.id) = 1 ∧
    (∀ x ∈ (checkReminders now rs).2, x.id = r.id → x.completed = true) ∧
    (∀ times : List ℚ,
      (deliveredOverCycles times (checkReminders now rs).2).countP
        (fun x => x.id = r.id) = 0) := by
  have hrdue : r ∈ getDueReminders now rs := by
    simp only [getDueReminders, List.mem_filter, decide_eq_true_eq]
    exact ⟨hr, hc, hd⟩
  have hcomp : ∀ x ∈ (checkReminders now rs).2, x.id = r.id → x.completed = true := by
    rw [checkReminders_snd]
    exact completeAll_completes r.id _ rs (List.mem_map_of_mem _ hrdue)
  refine ⟨?_, hcomp, fun times => deliveredOverCycles_completed_id r.id times _ hcomp⟩
  have hle : (getDueReminders now rs).countP (fun x => x.id = r.id) ≤
      rs.countP (fun x => x.id = r.id) := by
    rw [getDueReminders, List.countP_filter]
    apply List.countP_mono_left
    intro a _ h
    simp only [Bool.and_eq_true] at h
    exact h.1
  have hge : 0 < (getDueReminders now rs).countP (fun x => x.id = r.id) := by
    rw [List.countP_pos_iff]
    exact ⟨r, hrdue, by simp⟩
  have heq := countP_id_eq_one hnd hr
  omega

/-- Claim C1, witness: a due reminder among two, delivered once at time 10
and never again over two later cycles. -/
theorem reminderDeliveredExactlyOnce_witness :
    (getDueReminders 10
      [⟨1, "water the plants", 5, false⟩, ⟨2, "file taxes", 200, false⟩]).countP
      (fun x => x.id = 1) = 1 ∧
    (∀ x ∈ (checkReminders 10
      [⟨1, "water the plants", 5, false⟩, ⟨2, "file taxes", 200, false⟩]).2,
      x.id = 1 → x.completed = true) ∧
    (deliveredOverCycles [40, 70]
      (checkReminders 10
        [⟨1, "water the plants", 5, false⟩, ⟨2, "file taxes", 200, false⟩]).2).countP
      (fun x => x.id = 1) = 0 := by
  have h := reminderDeliveredExactlyOnce 10
    [⟨1, "water the plants", 5, false⟩, ⟨2, "file taxes", 200, false⟩]
    ⟨1, "water the plants", 5, false⟩ (by decide) (by decide) rfl (by decide)
  exact ⟨h.1, h.2.1, h.2.2 [40, 70]⟩

/-- Claim C4, counterexample: cancel_reminder is a user-facing operation that
sets a completed flag to true, and it does so for a reminder whose remind_at
(100) is still in the future at time 0 — so the false-to-true transition is
neither performed only by the scheduler nor only for due reminders. -/
theorem cancelCompletesNonDue_counterexample :
    cancelReminder 1 [⟨1, "call the dentist", 100, false⟩] =
      [⟨1, "call the dentist", 100, true⟩] ∧
    ¬ ((100 : ℚ) ≤ 0) := by
  constructor
  · decide
  · decide

/-- Claim C4, amended: the scheduler cycle flips completed only for due
reminders — an uncompleted reminder that is not yet due keeps completed =
false through a check cycle — while the user-facing cancel_reminder flips
completed to true for whichever pending reminder is selected, with no
condition on remind_at (cancellation is implemented as completion). -/
theorem reminderCompletionOwnership (now : ℚ) (rs : List Reminder) (r : Reminder) (n : ℕ)
    (hnd : (rs.map (fun y => y.id)).Nodup)
    (hr : r ∈ rs) (hc : r.completed = false) (hnotdue : ¬ r.remindAt ≤ now)
    (hn1 : 1 ≤ n) (hn : n - 1 < (pendingReminders rs).length) :
    (∀ x ∈ (checkReminders now rs).2, x.id = r.id → x.completed = false) ∧
    ((pendingReminders rs).get ⟨n - 1, hn⟩).completed = false ∧
    (∀ x ∈ cancelReminder n rs,
      x.id = ((pendingReminders rs).get ⟨n - 1, hn⟩).id → x.completed = true) := by
  refine ⟨?_, ?_, ?_⟩
  · rw [checkReminders_snd]
    refine completeAll_keeps_uncompleted r.id _ rs ?_ ?_
    · intro hmem
      simp only [List.mem_map] at hmem
      obtain ⟨y, hy, hid⟩ := hmem
      obtain ⟨hyrs, _, hydue⟩ := mem_getDueReminders hy
      have hyr : y = r := eq_of_mem_of_id_eq hnd hyrs hr hid
      exact hnotdue (hyr ▸ hydue)
    · intro x hx hid
      have hxr : x = r := eq_of_mem_of_id_eq hnd hx hr hid
      rw [hxr]
      exact hc
  · have hmem : (pendingReminders rs).get ⟨n - 1, hn⟩ ∈ pendingReminders rs :=
      List.get_mem _ _ hn
    have hmem2 : (pendingReminders rs).get ⟨n - 1, hn⟩ ∈
        rs.filter (fun x => x.completed = false) := by
      unfold pendingReminders at hmem
      exact mem_sortByRemindAt.mp hmem
    have := List.mem_filter.mp hmem2
    simpa using this.2
  · intro x hx hid
    simp only [cancelReminder] at hx
    rw [dif_pos ⟨hn1, hn⟩] at hx
    exact completeReminder_id_completed _ rs x hx hid

/-- Claim C4, witness for the amended theorem: a single pending reminder due
only at time 100, inspected at time 0 and cancelled as number 1. -/
theorem reminderCompletionOwnership_witness :
    (∀ x ∈ (checkReminders 0 [⟨1, "call the dentist", 100, false⟩]).2,
      x.id = 1 → x.completed = false) ∧
    ((pendingReminders [⟨1, "call the dentist", 100, false⟩]).get
      ⟨0, by decide⟩).completed = false ∧
    (∀ x ∈ cancelReminder 1 [⟨1, "call the dentist", 100, false⟩],
      x.id = ((pendingReminders [⟨1, "call the dentist", 100, false⟩]).get
        ⟨0, by decide⟩).id → x.completed = true) := by
  have h := reminderCompletionOwnership 0 [⟨1, "call the dentist", 100, false⟩]
    ⟨1, "call the dentist", 100, false⟩ 1 (by decide) (by decide) rfl (by decide)
    (by decide) (by decide)
  exact ⟨h.1, h.2.1, h.2.2⟩

/-! ## Study timer lemmas -/

/-- One countdown tick is truncated decrement of remaining_seconds. -/
theorem tick_eq (st : StudyState) :
    tick st = { st with remainingSeconds := st.remainingSeconds - 1 } := by
  unfold tick
  by_cases h : 0 < st.remainingSeconds
  · rw [if_pos h]
  · rw [if_neg h]
    have h0 : st.remainingSeconds = 0 := by omega
    cases st
    simp_all

/-- Iterated ticks subtract from remaining_seconds and touch nothing else. -/
theorem tick_iterate (n : ℕ) (st : StudyState) :
    tick^[n] st = { st with remainingSeconds := st.remainingSeconds - n } := by
  induction n generalizing st with
  | zero => cases st; simp
  | succ n ih =>
    rw [Function.iterate_succ_apply, tick_eq, ih]
    simp only []
    congr 1
    omega

/-- Natural completion of the countdown leaves remaining_seconds at zero and
the timer inactive. -/
theorem runTimer_final (now : ℚ) (st : StudyState) :
    (runTimer now st).1.remainingSeconds = 0 ∧ (runTimer now st).1.isActive = false := by
  unfold runTimer
  rw [tick_iterate]
  unfold completeSession
  by_cases h : st.isBreak <;> simp [h, Nat.sub_self]

/-- A stop_session record, when one is persisted, is a completed=false
record. -/
theorem stopSession_record_incomplete (now : ℚ) (st : StudyState) (rec : SessionRecord)
    (h : (stopSession now st).2 = some rec) : rec.completed = false := by
  unfold stopSession at h
  by_cases hA : !st.isActive
  · rw [if_pos hA] at h
    simp at h
  · rw [if_neg hA] at h
    by_cases hB : st.isBreak
    · rw [if_pos hB] at h
      simp at h
    · rw [if_neg hB] at h
      by_cases h5 : 5 ≤ (st.sessionDuration * 60 - st.remainingSeconds) / 60
      · rw [if_pos h5] at h
        simp only [Option.some.injEq] at h
        rw [← h]
      · rw [if_neg h5] at h
        simp at h

/-- Appending a completed=false record to the table leaves the study
statistics unchanged. -/
theorem getStudyStats_append_incomplete (now : ℚ) (days : ℕ)
    (records : List SessionRecord) (r : SessionRecord) (hr : r.completed = false) :
    getStudyStats now days (records ++ [r]) = getStudyStats now days records := by
  unfold getStudyStats
  have hsel : (records ++ [r]).filter
      (fun x => x.completed = true ∧ now - (days : ℚ) ≤ x.startedAt) =
      records.filter (fun x => x.completed = true ∧ now - (days : ℚ) ≤ x.startedAt) := by
    rw [List.filter_append]
    have : [r].filter (fun x => x.completed = true ∧ now - (days : ℚ) ≤ x.startedAt) = [] := by
      simp [List.filter, hr]
    rw [this, List.append_nil]
  rw [hsel]

/-! ## Claims about the study timer -/

/-- Claim C3, counterexample: start_break during an active break session
raises remaining_seconds from 10 to 300 while the session stays active, and
an explicit stop of an active focus session leaves remaining_seconds at its
last value 1140 instead of resetting it to 0 — refuting both the
monotonicity of remaining_seconds under every operation and the reset-to-0
on explicit stop. -/
theorem timerReset_counterexample :
    ((⟨true, true, "", 0, 25, 10, 0⟩ : StudyState).isActive = true ∧
     (startBreak none ⟨true, true, "", 0, 25, 10, 0⟩).isActive = true ∧
     (startBreak none ⟨true, true, "", 0, 25, 10, 0⟩).remainingSeconds = 300 ∧
     ¬ (startBreak none (⟨true, true, "", 0, 25, 10, 0⟩ : StudyState)).remainingSeconds ≤
       (⟨true, true, "", 0, 25, 10, 0⟩ : StudyState).remainingSeconds) ∧
    ((stopSession 0 ⟨true, false, "math", 0, 25, 1140, 0⟩).1.isActive = false ∧
     (stopSession 0 ⟨true, false, "math", 0, 25, 1140, 0⟩).1.remainingSeconds ≠ 0) := by
  decide

/-- Claim C3, amended: while a session is active, the countdown tick and
stop_session never increase remaining_seconds; explicit stop deactivates the
session but retains the last remaining_seconds value rather than resetting
it; natural completion ends with remaining_seconds = 0 and the session
inactive; start_break is rejected during an active focus session, while
during an active break it restarts the countdown and may increase
remaining_seconds. -/
theorem timerCountdownInvariants (now : ℚ) (d : Option ℕ) (st : StudyState)
    (h : st.isActive = true) :
    (tick st).remainingSeconds ≤ st.remainingSeconds ∧
    ((stopSession now st).1.isActive = false ∧
     (stopSession now st).1.remainingSeconds = st.remainingSeconds) ∧
    ((runTimer now st).1.remainingSeconds = 0 ∧ (runTimer now st).1.isActive = false) ∧
    (st.isBreak = false → startBreak d st = st) := by
  refine ⟨?_, ⟨?_, ?_⟩, runTimer_final now st, ?_⟩
  · rw [tick_eq]
    simp only []
    omega
  · unfold stopSession
    rw [if_neg (by simp [h])]
    by_cases hB : st.isBreak
    · rw [if_pos hB]
    · rw [if_neg hB]
      by_cases h5 : 5 ≤ (st.sessionDuration * 60 - st.remainingSeconds) / 60
      · rw [if_pos h5]
      · rw [if_neg h5]
  · unfold stopSession
    rw [if_neg (by simp [h])]
    by_cases hB : st.isBreak
    · rw [if_pos hB]
    · rw [if_neg hB]
      by_cases h5 : 5 ≤ (st.sessionDuration * 60 - st.remainingSeconds) / 60
      · rw [if_pos h5]
      · rw [if_neg h5]
  · intro hB
    unfold startBreak
    rw [if_pos (by rw [h, hB]; rfl)]

/-- Claim C3, witness for the amended theorem on an active focus session with
1490 seconds remaining. -/
theorem timerCountdownInvariants_witness :
    (tick ⟨true, false, "physics", 0, 25, 1490, 2⟩).remainingSeconds ≤ 1490 ∧
    ((stopSession 3 ⟨true, false, "physics", 0, 25, 1490, 2⟩).1.isActive = false ∧
     (stopSession 3 ⟨true, false, "physics", 0, 25, 1490, 2⟩).1.remainingSeconds = 1490) ∧
    ((runTimer 3 ⟨true, false, "physics", 0, 25, 1490, 2⟩).1.remainingSeconds = 0 ∧
     (runTimer 3 ⟨true, false, "physics", 0, 25, 1490, 2⟩).1.isActive = false) ∧
    startBreak none ⟨true, false, "physics", 0, 25, 1490, 2⟩ =
      ⟨true, false, "physics", 0, 25, 1490, 2⟩ := by
  have h := timerCountdownInvariants 3 none ⟨true, false, "physics", 0, 25, 1490, 2⟩ rfl
  exact ⟨h.1, h.2.1, h.2.2.1, h.2.2.2 rfl⟩

/-- Claim C9: stopping an active focus session deactivates it, and persists a
completed=false record with the elapsed whole minutes as its duration exactly
when at least 5 minutes have elapsed; below the threshold nothing is
persisted. -/
theorem stopSessionPersistThreshold (now : ℚ) (st : StudyState)
    (hA : st.isActive = true) (hB : st.isBreak = false) :
    (stopSession now st).1.isActive = false ∧
    (5 ≤ (st.sessionDuration * 60 - st.remainingSeconds) / 60 →
      (stopSession now st).2 = some
        { subject := if st.currentSubject = "" then "General" else st.currentSubject
          durationMinutes := (st.sessionDuration * 60 - st.remainingSeconds) / 60
          startedAt := st.sessionStart
          endedAt := now
          completed := false }) ∧
    ((st.sessionDuration * 60 - st.remainingSeconds) / 60 < 5 →
      (stopSession now st).2 = none) := by
  unfold stopSession
  rw [if_neg (by simp [hA]), if_neg (by simp [hB])]
  refine ⟨?_, ?_, ?_⟩
  · by_cases h5 : 5 ≤ (st.sessionDuration * 60 - st.remainingSeconds) / 60
    · rw [if_pos h5]
    · rw [if_neg h5]
  · intro h5
    rw [if_pos h5]
  · intro h5
    rw [if_neg (by omega)]

/-- Claim C9, witness: a 25-minute session stopped with 1140 seconds left (6
elapsed minutes) persists a completed=false record of duration 6, and one
stopped with 1320 seconds left (3 elapsed minutes) persists nothing. -/
theorem stopSessionPersistThreshold_witness :
    (stopSession 0 ⟨true, false, "math", 0, 25, 1140, 0⟩).1.isActive = false ∧
    (stopSession 0 ⟨true, false, "math", 0, 25, 1140, 0⟩).2 =
      some ⟨"math", 6, 0, 0, false⟩ ∧
    (stopSession 0 ⟨true, false, "math", 0, 25, 1320, 0⟩).2 = none := by
  have h1 := stopSessionPersistThreshold 0 ⟨true, false, "math", 0, 25, 1140, 0⟩ rfl rfl
  have h2 := stopSessionPersistThreshold 0 ⟨true, false, "math", 0, 25, 1320, 0⟩ rfl rfl
  refine ⟨h1.1, ?_, h2.2.2 (by decide)⟩
  rw [h1.2.1 (by decide)]
  decide

/-- Claim C10: the study-statistics aggregate ignores completed=false rows —
appending such a row changes none of the reported totals, and in particular
whatever stop_session persists (always a completed=false record when it
persists anything) never contributes to the statistics. -/
theorem studyStatsIgnoreIncomplete (now : ℚ) (days : ℕ)
    (records : List SessionRecord) (r : SessionRecord) (hr : r.completed = false) :
    getStudyStats now days (records ++ [r]) = getStudyStats now days records ∧
    ∀ (t : ℚ) (st : StudyState),
      getStudyStats now days (records ++ (stopSession t st).2.toList) =
        getStudyStats now days records := by
  refine ⟨getStudyStats_append_incomplete now days records r hr, ?_⟩
  intro t st
  cases hrec : (stopSession t st).2 with
  | none => simp [hrec]
  | some rec =>
    have hinc := stopSession_record_incomplete t st rec hrec
    simp only [Option.toList]
    exact getStudyStats_append_incomplete now days records rec hinc

/-- Claim C10, witness: one completed and one incomplete record, plus the
record persisted by a concrete early stop, leave the statistics unchanged. -/
theorem studyStatsIgnoreIncomplete_witness :
    getStudyStats 10 7 ([⟨"algebra", 25, 5, 6, true⟩] ++ [⟨"drafts", 6, 5, 6, false⟩]) =
      getStudyStats 10 7 [⟨"algebra", 25, 5, 6, true⟩] ∧
    getStudyStats 10 7
        ([⟨"algebra", 25, 5, 6, true⟩] ++
          (stopSession 0 ⟨true, false, "math", 0, 25, 1140, 0⟩).2.toList) =
      getStudyStats 10 7 [⟨"algebra", 25, 5, 6, true⟩] := by
  have h := studyStatsIgnoreIncomplete 10 7 [⟨"algebra", 25, 5, 6, true⟩]
    ⟨"drafts", 6, 5, 6, false⟩ rfl
  exact ⟨h.1, h.2 0 ⟨true, false, "math", 0, 25, 1140, 0⟩⟩

/-! ## Wake-word gate lemmas -/

/-- findSub succeeds exactly when the pattern occurs at some position. -/
theorem findSub_isSome_iff (pat : List Char) :
    ∀ s : List Char, (findSub pat s).isSome = true ↔
      ∃ i, startsWithList pat (s.drop i) = true := by
  intro s
  induction s with
  | nil =>
    constructor
    · intro h
      by_cases hp : startsWithList pat [] = true
      · exact ⟨0, by simpa using hp⟩
      · simp [findSub, hp] at h
    · rintro ⟨i, hi⟩
      simp only [List.drop_nil] at hi
      simp [findSub, hi]
  | cons c rest ih =>
    by_cases hp : startsWithList pat (c :: rest) = true
    · constructor
      · intro _
        exact ⟨0, by simpa using hp⟩
      · intro _
        simp [findSub, hp]
    · constructor
      · intro h
        simp only [findSub, if_neg hp] at h
        cases hfs : findSub pat rest with
        | none => rw [hfs] at h; simp at h
        | some j =>
          obtain ⟨i, hi⟩ := ih.mp (by rw [hfs]; rfl)
          exact ⟨i + 1, by simpa using hi⟩
      · rintro ⟨i, hi⟩
        cases i with
        | zero =>
          simp only [List.drop_zero] at hi
          exact absurd hi hp
        | succ i =>
          have h2 : (findSub pat rest).isSome = true := ih.mpr ⟨i, by simpa using hi⟩
          simp only [findSub, if_neg hp]
          cases hfs : findSub pat rest with
          | none => rw [hfs] at h2; simp at h2
          | some j => simp [hfs]

/-- The wake-word listener yields a result exactly when the token search
does. -/
theorem listenWithWakeWord_isSome (t : List Char) :
    (listenWithWakeWord t).isSome = (findSub wakeWord (lowerStr t)).isSome := by
  unfold listenWithWakeWord
  cases h : findSub wakeWord (lowerStr t) <;> simp [h]

/-! ## Claims about the wake-word gate -/

/-- Claim C7, counterexample: the transcript with an exclamation mark after
the wake token yields the command with the leading punctuation still in
place — the source strips only leading commas and periods, not leading
punctuation in general. -/
theorem wakeGatePunctuation_counterexample :
    listenWithWakeWord "arthur! hello".toList = some "! hello".toList ∧
    "! hello".toList ≠ "hello".toList := by
  constructor
  · decide
  · decide

/-- Claim C7, amended: in the waiting state a transcript yields a command
(and activates the conversation, refreshing the timestamp) exactly when the
wake token occurs case-insensitively as a substring; absent the token the
utterance is discarded and the state is unchanged; the yielded command is
the lowercased text after the token with surrounding whitespace and leading
commas then leading periods removed, as the schedule example shows, and it
may be empty for a pure wake. -/
theorem wakeGateCharacterization (now : ℚ) (st : GateState) (t : List Char) :
    ((gateStepWaiting now st t).2.isSome = true ↔
      ∃ i, startsWithList wakeWord ((lowerStr t).drop i) = true) ∧
    (∀ cmd, (gateStepWaiting now st t).2 = some cmd →
      (gateStepWaiting now st t).1 =
        { conversationActive := true, lastInteraction := now }) ∧
    ((gateStepWaiting now st t).2 = none → (gateStepWaiting now st t).1 = st) ∧
    (gateStepWaiting now st "arthur, what is on my schedule".toList).2 =
      some "what is on my schedule".toList := by
  refine ⟨?_, ?_, ?_, ?_⟩
  · have hsame : (gateStepWaiting now st t).2.isSome = (listenWithWakeWord t).isSome := by
      unfold gateStepWaiting
      cases h : listenWithWakeWord t <;> simp [h]
    rw [hsame, listenWithWakeWord_isSome]
    exact findSub_isSome_iff wakeWord (lowerStr t)
  · intro cmd h
    unfold gateStepWaiting at h ⊢
    cases hl : listenWithWakeWord t with
    | none => rw [hl] at h; simp at h
    | some c => rfl
  · intro h
    unfold gateStepWaiting at h ⊢
    cases hl : listenWithWakeWord t with
    | none => rfl
    | some c => rw [hl] at h; simp at h
  · have hex : listenWithWakeWord "arthur, what is on my schedule".toList =
        some "what is on my schedule".toList := by decide
    unfold gateStepWaiting
    rw [hex]

/-- Claim C7, witness: a non-wake transcript is discarded with the state
unchanged, and the schedule example yields its command. -/
theorem wakeGateCharacterization_witness :
    (gateStepWaiting 7 ⟨false, 0⟩ "hello there".toList).2 = none ∧
    (gateStepWaiting 7 ⟨false, 0⟩ "hello there".toList).1 = ⟨false, 0⟩ ∧
    (gateStepWaiting 7 ⟨false, 0⟩ "arthur, what is on my schedule".toList).2 =
      some "what is on my schedule".toList := by
  have h := wakeGateCharacterization 7 ⟨false, 0⟩ "hello there".toList
  have hnone : (gateStepWaiting 7 ⟨false, 0⟩ "hello there".toList).2 = none := by decide
  exact ⟨hnone, h.2.2.1 hnone, h.2.2.2⟩

/-- Claim C8: in the Active state, once the idle window has expired the next
loop iteration deactivates the conversation, consumes no input and processes
no command, whatever transcript would have been available. -/
theorem activeIdleTimeout (timeout now : ℚ) (st : GateState) (text : List Char)
    (_hA : st.conversationActive = true) (hT : timeout < now - st.lastInteraction) :
    gateStepActive timeout now st text =
      ({ conversationActive := false, lastInteraction := st.lastInteraction },
        false, none) := by
  unfold gateStepActive
  rw [if_pos hT]

/-- Claim C8, witness: with the default 30-second window, an Active gate last
refreshed at time 0 and polled at time 100 deactivates without consuming the
pending input. -/
theorem activeIdleTimeout_witness :
    gateStepActive 30 100 ⟨true, 0⟩ "go on".toList = (⟨false, 0⟩, false, none) :=
  activeIdleTimeout 30 100 ⟨true, 0⟩ "go on".toList rfl (by norm_num)

end Arthur
